import Mathlib

/-!
Shallow embedding of the evolutionary query-population engine of
`src/python/queries.py`.

Conventions of the embedding:

* Python floats (the `fitness` attribute) are modelled as rationals.
* Python object identity is modelled by an explicit heap: query objects and
  list objects are numbered, `Heap.queryStore` and `Heap.listStore` map an
  id to the current value of the object, and the counters `nextQueryId` and
  `nextListId` bound the ids in use, so larger ids are fresh allocations.
* Raised exceptions are modelled with `Except String`.
* Classes of this repository that `queries.py` imports but whose files are
  not part of the sources (`query.py`, `population.py`, `individual.py`,
  `decorators.py`) are modelled from the spec; each such definition carries
  a doc comment saying so.
-/

/-- A candidate search query.  Modelled from the spec: the `Query` class
lives in `query.py`, which is not among the sources; only the attributes
used by `queries.py` are represented — the ordered term sequence (the
structural content) and the externally assigned scalar `fitness` (a Python
float, modelled as a rational). -/
structure Query where
  terms : List String
  fitness : ℚ
  deriving DecidableEq

/-- Number of terms of a query, the viability predicate.  Modelled from the
spec: `Query.size` is defined in `query.py` (not among the sources); per the
spec it returns the number of terms. -/
def Query.size (q : Query) : Nat :=
  q.terms.length

/-- Canonical representation of a query, the deduplication key.  Modelled
from the spec: `Query.__repr__` lives in `query.py` (not among the sources);
per the spec two queries with identical term sequences produce identical
representations regardless of fitness, so the representation is a function
of the term content only. -/
def pyRepr (q : Query) : List String :=
  q.terms

/-- Structural copy of a query, as produced by `copy.deepcopy`: same term
content and fitness.  Object identity (freshness of the copy, independence
of its mutable state) is handled by the heap model below. -/
def deepcopy (q : Query) : Query :=
  { terms := q.terms, fitness := q.fitness }

/-- Model of the Python builtin `sorted(l, key = key)`: a stable sort,
ascending in the key. -/
def pySortedBy {α : Type} (key : α → ℚ) (l : List α) : List α :=
  List.insertionSort (fun a b => key a ≤ key b) l

/-- One step of the list comprehension inside `Queries._without_lowest`.
The guard `key(e) > key(l_sorted[0])` indexes the sorted list; in Python the
guard is evaluated once per iterated element, so over an empty list the
index expression is never reached, while on a nonempty list the index is in
bounds.  Indexing an empty list would raise `IndexError`. -/
def wlBody {α : Type} (key : α → ℚ) (lSorted : List α) (e : α)
    (acc : Except String (List α)) : Except String (List α) :=
  match acc with
  | Except.error msg => Except.error msg
  | Except.ok rest =>
    match lSorted.head? with
    | none => Except.error "IndexError: list index out of range"
    | some m => if key m < key e then Except.ok (e :: rest) else Except.ok rest

/-- Embedding of the static method `Queries._without_lowest`: sorts the list
ascending by the key and keeps exactly the elements whose key is strictly
greater than the key of the first element of the sorted list. -/
def without_lowest {α : Type} (l : List α) (key : α → ℚ) : Except String (List α) :=
  l.foldr (wlBody key (pySortedBy key l)) (Except.ok [])

/-- Embedding of `Queries.select` on the list of current queries:
`self.queries = Queries._without_lowest(self.queries, key = lambda x: x.fitness)`. -/
def select (l : List Query) : Except String (List Query) :=
  without_lowest l (fun q => q.fitness)

/-- Embedding of `Queries.average_score`: `0.0` on an empty population,
otherwise the sum of the fitness values divided by the population size. -/
def average_score (l : List Query) : ℚ :=
  if l.length = 0 then 0 else (l.map Query.fitness).sum / (l.length : ℚ)

/-- Embedding of `Queries.sorted_queries`.  Modelled from the spec: the
`sorter` decorator lives in `decorators.py` (not among the sources); per the
spec it exposes the current queries sorted by the key `lambda x: x.fitness`
with `reverse = True` (descending fitness), recomputed whenever the
underlying population has changed, hence a function of the current
population. -/
def sorted_queries (l : List Query) : List Query :=
  List.insertionSort (fun a b => b.fitness ≤ a.fitness) l

/-- Model of the Python library call `random.sample(range(0, n), k)`: raises
`ValueError` when `k` exceeds the size of the sample space, otherwise
returns `k` distinct indices below `n`, supplied here by the choice function
`pick` — the randomness oracle. -/
def randomSample (pick : Nat → Nat → List Nat) (n k : Nat) : Except String (List Nat) :=
  if k ≤ n then Except.ok (pick n k)
  else Except.error "ValueError: Sample larger than population or is negative"

/-- Embedding of the body of `Queries.random_purge`: draws `k` random
indices and keeps the entries at all other positions of the enumerated
list. -/
def randomPurgeList {α : Type} (pick : Nat → Nat → List Nat) (k : Nat)
    (l : List α) : Except String (List α) :=
  match randomSample pick l.length k with
  | Except.error msg => Except.error msg
  | Except.ok idxs =>
      Except.ok ((l.enum.filter (fun p => decide (p.1 ∉ idxs))).map Prod.snd)

/-- Embedding of the loop in `Queries.remove_duplicates`: walks the query
ids in order and keeps an id exactly when the representation of its query
object has not been seen before. -/
def removeDupsAux (store : Nat → Query) (seen : List (List String)) :
    List Nat → List Nat
  | [] => []
  | i :: rest =>
    if pyRepr (store i) ∈ seen then removeDupsAux store seen rest
    else i :: removeDupsAux store (pyRepr (store i) :: seen) rest

/-- Fuel-indexed helper for `firstOccurrencesBy`; the fuel dominates the
list length, making the recursion structural. -/
def firstOccurrencesByAux {α β : Type} [DecidableEq β] (key : α → β) :
    Nat → List α → List α
  | _, [] => []
  | 0, _ :: _ => []
  | fuel + 1, i :: rest =>
      i :: firstOccurrencesByAux key fuel
        (rest.filter (fun j => decide (key j ≠ key i)))

/-- Specification-side characterization of first-occurrence deduplication:
keep the head and drop every later element with the same key. -/
def firstOccurrencesBy {α β : Type} [DecidableEq β] (key : α → β)
    (l : List α) : List α :=
  firstOccurrencesByAux key l.length l

/-- Object heap: Python object identities for `Query` objects and for list
objects. -/
structure Heap where
  queryStore : Nat → Query
  listStore : Nat → List Nat
  nextQueryId : Nat
  nextListId : Nat

/-- State of a `Queries` object: `individualsRef` is the list object held by
the inherited `Population._individuals` attribute, `queriesRef` the list
object held by the `queries` attribute, and `words` the shared word pool
`_words`. -/
structure QueriesState where
  heap : Heap
  individualsRef : Nat
  queriesRef : Nat
  words : List String

/-- Embedding of `Queries.__init__`: `super().__init__(queries)` stores the
given list object in `_individuals` (modelled from the spec for
`population.py`, which is not among the sources: the container is
constructed from the given sequence of individuals), and the assignment
`self.queries = self._individuals` aliases the very same list object. -/
def initQueries (h : Heap) (words : List String) (queriesList : Nat) : QueriesState :=
  { heap := h, individualsRef := queriesList, queriesRef := queriesList,
    words := words }

/-- Query ids held by the list object currently bound to `self.queries`. -/
def currentIds (s : QueriesState) : List Nat :=
  s.heap.listStore s.queriesRef

/-- Allocation of a fresh Python list object holding `ids`, rebound into the
`queries` attribute — the effect of assigning a freshly built list to
`self.queries`.  Existing list objects, all query objects and the
`_individuals` attribute are untouched. -/
def allocList (s : QueriesState) (ids : List Nat) : QueriesState :=
  { s with
    heap := { s.heap with
      listStore := Function.update s.heap.listStore s.heap.nextListId ids,
      nextListId := s.heap.nextListId + 1 },
    queriesRef := s.heap.nextListId }

/-- Well-formed state: the list ids held by the two attributes are in use,
and every query id stored in a live list is below the query counter. -/
abbrev WF (s : QueriesState) : Prop :=
  s.individualsRef < s.heap.nextListId ∧
  s.queriesRef < s.heap.nextListId ∧
  ∀ ℓ, ℓ < s.heap.nextListId → ∀ i ∈ s.heap.listStore ℓ, i < s.heap.nextQueryId

/-- Embedding of the enum `RecombinationMode` (through `AutoNameEnum`); its
only member is `CLONE`. -/
inductive RecombinationMode where
  | CLONE
  deriving DecidableEq

/-- Value actually passed for `mode` in the dynamically typed source: either
a member of `RecombinationMode` or any other runtime value. -/
inductive ModeArg where
  | member (m : RecombinationMode)
  | other (v : String)
  deriving DecidableEq

/-- Embedding of `Queries.recombine`.  Under `CLONE` the current list object
is extended in place with one fresh deep copy of each current query.  For
any other mode the source calls `logging.ERROR(...)` — the integer level
constant, not a function — so the call raises `TypeError` before reaching
`exit(1)`; either way the call aborts with every object untouched, modelled
as an error outcome on an unchanged state. -/
def recombineOp (mode : ModeArg) (s : QueriesState) :
    QueriesState × Except String Unit :=
  match mode with
  | ModeArg.member RecombinationMode.CLONE =>
    ({ s with heap := { s.heap with
        queryStore := fun i =>
          if s.heap.nextQueryId ≤ i ∧ i < s.heap.nextQueryId + (currentIds s).length then
            deepcopy (s.heap.queryStore ((currentIds s).getD (i - s.heap.nextQueryId) 0))
          else s.heap.queryStore i,
        listStore := Function.update s.heap.listStore s.queriesRef
          (currentIds s ++ List.range' s.heap.nextQueryId (currentIds s).length),
        nextQueryId := s.heap.nextQueryId + (currentIds s).length } },
     Except.ok ())
  | ModeArg.other _ =>
    (s, Except.error "TypeError: logging.ERROR is not callable")

/-- Embedding of `Queries.select` at the heap level: applies
`_without_lowest` (keyed by the fitness of the stored query objects) to the
current list and rebinds `self.queries` to a fresh list holding the
result. -/
def selectOp (s : QueriesState) : Except String QueriesState :=
  match without_lowest (currentIds s) (fun i => (s.heap.queryStore i).fitness) with
  | Except.ok ids => Except.ok (allocList s ids)
  | Except.error msg => Except.error msg

/-- Embedding of the loop in `Queries.mutate`: each query object in the list
is mutated in place — `query.mutate(self._words)` is modelled by the outcome
function `f`, since `query.py` is not among the sources; per the spec the
mutation may add, remove or replace terms drawn from the word pool, so `f`
is kept arbitrary — and the id is appended to the survivor list exactly when
the size of the object right after its own mutation is positive. -/
def mutateLoop (f : List String → Query → Query) (words : List String) :
    List Nat → (Nat → Query) → List Nat × (Nat → Query)
  | [], store => ([], store)
  | i :: rest, store =>
    let store1 := Function.update store i (f words (store i))
    let result := mutateLoop f words rest store1
    ((if 0 < (store1 i).size then i :: result.1 else result.1), result.2)

/-- Embedding of `Queries.mutate`: runs the mutation loop over the current
list and rebinds `self.queries` to a fresh list of the survivors. -/
def mutateOp (f : List String → Query → Query) (s : QueriesState) : QueriesState :=
  let result := mutateLoop f s.words (currentIds s) s.heap.queryStore
  allocList { s with heap := { s.heap with queryStore := result.2 } } result.1

/-- Embedding of `Queries.random_purge` at the heap level: on success the
surviving ids are rebound into a fresh list; the `ValueError` raised by
`random.sample` propagates to the caller. -/
def randomPurgeOp (pick : Nat → Nat → List Nat) (k : Nat) (s : QueriesState) :
    Except String QueriesState :=
  match randomPurgeList pick k (currentIds s) with
  | Except.ok ids => Except.ok (allocList s ids)
  | Except.error msg => Except.error msg

/-- Embedding of `Queries.remove_duplicates` at the heap level: keeps the
first occurrence of each representation and rebinds `self.queries` to a
fresh list of the survivors. -/
def removeDuplicatesOp (s : QueriesState) : QueriesState :=
  allocList s (removeDupsAux s.heap.queryStore [] (currentIds s))

/-- Frame property of the filtering operations: the `queries` attribute is
rebound to a freshly allocated list object, every previously existing list
object is unchanged (in particular the one still held by the inherited
`_individuals` attribute, which is not reassigned), and afterwards the two
attributes refer to different list objects. -/
def FreshRebind (s t : QueriesState) : Prop :=
  t.individualsRef = s.individualsRef ∧
  t.queriesRef = s.heap.nextListId ∧
  (∀ ℓ, ℓ < s.heap.nextListId → t.heap.listStore ℓ = s.heap.listStore ℓ) ∧
  t.heap.listStore t.individualsRef = s.heap.listStore s.individualsRef ∧
  t.queriesRef ≠ t.individualsRef

/-- Population of the deduplication example of the spec: `A(terms=[x,y],
fitness=1)`, `B(terms=[x,y], fitness=9)`, `C(terms=[z], fitness=2)`. -/
def dedupExample : QueriesState :=
  { heap :=
      { queryStore := fun i =>
          if i = 0 then Query.mk ["x", "y"] 1
          else if i = 1 then Query.mk ["x", "y"] 9
          else Query.mk ["z"] 2,
        listStore := fun ℓ => if ℓ = 0 then [0, 1, 2] else [],
        nextQueryId := 3, nextListId := 1 },
    individualsRef := 0, queriesRef := 0, words := [] }

/-- Mutation outcome removing the first term — a term-removal mutation,
which the spec explicitly allows `Query.mutate` to perform. -/
def dropOneTerm (_words : List String) (q : Query) : Query :=
  Query.mk (q.terms.drop 1) q.fitness

/-- Duplicate-free population for the C3 witness: the query with one term
mutates to empty and must be filtered out, the other survives. -/
def mutateExample : QueriesState :=
  { heap :=
      { queryStore := fun i =>
          if i = 0 then Query.mk ["a"] 1 else Query.mk ["b", "c"] 2,
        listStore := fun ℓ => if ℓ = 0 then [0, 1] else [],
        nextQueryId := 2, nextListId := 1 },
    individualsRef := 0, queriesRef := 0, words := [] }

/-- Population containing the same query object (id 5) at two positions —
legal in the source, where the population list may hold the same `Query`
object more than once. -/
def aliasedState : QueriesState :=
  { heap :=
      { queryStore := fun _ => Query.mk ["a", "b"] 0,
        listStore := fun ℓ => if ℓ = 0 then [5, 5] else [],
        nextQueryId := 6, nextListId := 1 },
    individualsRef := 0, queriesRef := 0, words := [] }

/-- Concrete well-formed two-query state shared by several witnesses. -/
def twoQueryState : QueriesState :=
  { heap :=
      { queryStore := fun i =>
          if i = 0 then Query.mk ["a"] 3 else Query.mk ["b"] 5,
        listStore := fun ℓ => if ℓ = 0 then [0, 1] else [],
        nextQueryId := 2, nextListId := 1 },
    individualsRef := 0, queriesRef := 0, words := ["w"] }

/-! Helper lemmas about the model of `sorted` and `_without_lowest`. -/

theorem pySortedBy_perm {α : Type} (key : α → ℚ) (l : List α) :
    (pySortedBy key l).Perm l :=
  List.perm_insertionSort _ l

theorem pySortedBy_head_min {α : Type} (key : α → ℚ) (l : List α) (m : α)
    (hm : (pySortedBy key l).head? = some m) :
    m ∈ l ∧ ∀ x ∈ l, key m ≤ key x := by
  haveI : IsTotal α (fun a b => key a ≤ key b) := ⟨fun a b => le_total (key a) (key b)⟩
  haveI : IsTrans α (fun a b => key a ≤ key b) := ⟨fun _ _ _ hab hbc => le_trans hab hbc⟩
  have hs : List.Sorted (fun a b => key a ≤ key b) (pySortedBy key l) :=
    List.sorted_insertionSort _ l
  obtain ⟨rest, hrest⟩ : ∃ rest, pySortedBy key l = m :: rest := by
    cases hc : pySortedBy key l with
    | nil => rw [hc] at hm; cases hm
    | cons a t =>
      rw [hc] at hm
      refine ⟨t, ?_⟩
      have ha : a = m := by
        have := hm
        simp only [List.head?_cons, Option.some.injEq] at this
        exact this
      rw [ha]
  constructor
  · have hmem : m ∈ pySortedBy key l := by
      rw [hrest]; exact List.mem_cons_self _ _
    exact (pySortedBy_perm key l).mem_iff.mp hmem
  · intro x hx
    have hx2 : x ∈ pySortedBy key l := (pySortedBy_perm key l).mem_iff.mpr hx
    rw [hrest] at hx2 hs
    rcases List.mem_cons.mp hx2 with h1 | h2
    · rw [h1]
    · exact List.rel_of_sorted_cons hs x h2

theorem pySortedBy_head_of_ne_nil {α : Type} (key : α → ℚ) (l : List α)
    (h : l ≠ []) : ∃ m, (pySortedBy key l).head? = some m := by
  cases hc : pySortedBy key l with
  | nil =>
    have hp := pySortedBy_perm key l
    rw [hc] at hp
    exact absurd hp.symm.eq_nil h
  | cons a t => exact ⟨a, rfl⟩

theorem wlFold_ok {α : Type} (key : α → ℚ) (ls : List α) (m : α)
    (hm : ls.head? = some m) (l : List α) :
    l.foldr (wlBody key ls) (Except.ok []) =
      Except.ok (l.filter (fun e => decide (key m < key e))) := by
  induction l with
  | nil => rfl
  | cons a t ih =>
    simp only [List.foldr_cons, ih, wlBody, hm, List.filter_cons]
    by_cases h : key m < key a
    · simp [h]
    · simp [h]

theorem without_lowest_spec {α : Type} (l : List α) (key : α → ℚ) (m : α)
    (hm : (pySortedBy key l).head? = some m) :
    without_lowest l key = Except.ok (l.filter (fun e => decide (key m < key e))) :=
  wlFold_ok key _ m hm l

theorem currentIds_allocList (s : QueriesState) (ids : List Nat) :
    currentIds (allocList s ids) = ids := by
  simp [currentIds, allocList]

/-- C1: for every population, `select()` removes exactly the individuals
whose fitness equals the minimum fitness over the population — every member
tied for lowest, keeping all others in their order — and if all individuals
share the same fitness the population becomes empty.  The rational `m` is
characterized as the minimum fitness by the two hypotheses. -/
theorem select_removes_all_minimum (l : List Query) (m : ℚ)
    (hmem : m ∈ l.map Query.fitness) (hmin : ∀ q ∈ l, m ≤ q.fitness) :
    select l = Except.ok (l.filter (fun q => decide (m < q.fitness))) ∧
    (∀ q ∈ l, (¬ m < q.fitness ↔ q.fitness = m)) ∧
    ((∀ q ∈ l, q.fitness = m) → select l = Except.ok []) := by
  have hne : l ≠ [] := by
    intro h
    rw [h] at hmem
    cases hmem
  obtain ⟨m0, hm0⟩ := pySortedBy_head_of_ne_nil (fun q => q.fitness) l hne
  obtain ⟨hm0mem, hm0min⟩ := pySortedBy_head_min (fun q => q.fitness) l m0 hm0
  obtain ⟨q0, hq0mem, hq0⟩ := List.mem_map.mp hmem
  have hm0eq : m0.fitness = m :=
    le_antisymm (hq0 ▸ hm0min q0 hq0mem) (hmin m0 hm0mem)
  have hmain : select l = Except.ok (l.filter (fun q => decide (m < q.fitness))) := by
    have := without_lowest_spec l (fun q => q.fitness) m0 hm0
    rw [select, this]
    simp only [hm0eq]
  refine ⟨hmain, ?_, ?_⟩
  · intro q hq
    constructor
    · intro hnlt
      exact le_antisymm (not_lt.mp hnlt) (hmin q hq)
    · intro heq
      rw [heq]
      exact lt_irrefl m
  · intro hall
    rw [hmain]
    congr 1
    rw [List.filter_eq_nil_iff]
    intro q hq
    simp only [decide_eq_true_eq, not_lt]
    exact le_of_eq (hall q hq)

/-- Witness for C1 at the fitness profile `[3, 3, 5, 1]` of the spec: the
single individual with the minimum fitness `1` is removed and the others
survive in order. -/
theorem select_removes_all_minimum_witness :
    select [Query.mk ["a"] 3, Query.mk ["b"] 3, Query.mk ["c"] 5, Query.mk ["d"] 1] =
      Except.ok [Query.mk ["a"] 3, Query.mk ["b"] 3, Query.mk ["c"] 5] := by
  have h := select_removes_all_minimum
    [Query.mk ["a"] 3, Query.mk ["b"] 3, Query.mk ["c"] 5, Query.mk ["d"] 1] 1
    (by decide) (by decide)
  exact h.1.trans (by rfl)

/-- C9: `select()` on an empty population returns normally (no raise) and
leaves the population empty: the dangerous index `l_sorted[0]` inside
`_without_lowest` is only evaluated per iterated element, so over an empty
list it is never reached. -/
theorem select_empty_population_ok (s : QueriesState) (h : currentIds s = []) :
    ∃ t, selectOp s = Except.ok t ∧ currentIds t = [] := by
  refine ⟨allocList s [], ?_, currentIds_allocList s []⟩
  simp only [selectOp, h]
  rfl

/-- Witness for C9: a concrete state whose population list is empty. -/
theorem select_empty_population_ok_witness :
    ∃ t, selectOp
      { heap :=
          { queryStore := fun _ => Query.mk [] 0,
            listStore := fun _ => [],
            nextQueryId := 0, nextListId := 1 },
        individualsRef := 0, queriesRef := 0, words := [] } = Except.ok t ∧
      currentIds t = [] :=
  select_empty_population_ok _ rfl

/-- C4: `average_score()` returns `0.0` on an empty population — a defined
result, not an error — and on a nonempty population the arithmetic mean of
the fitness values (stated product-free of division: the result times the
population size is the fitness sum); on fitness profile `[2, 4]` it returns
`3.0`. -/
theorem average_score_empty_and_mean :
    average_score [] = 0 ∧
    (∀ l : List Query, l ≠ [] →
      average_score l * (l.length : ℚ) = (l.map Query.fitness).sum) ∧
    average_score [Query.mk ["a"] 2, Query.mk ["b"] 4] = 3 := by
  refine ⟨rfl, ?_, by simp [average_score]; norm_num⟩
  intro l hl
  have h0 : l.length ≠ 0 := fun h => hl (List.length_eq_zero.mp h)
  have hlen : (l.length : ℚ) ≠ 0 := Nat.cast_ne_zero.mpr h0
  rw [average_score, if_neg h0]
  exact div_mul_cancel₀ _ hlen

/-- Witness for C4 at the nonempty population of fitness values `2` and
`4`. -/
theorem average_score_empty_and_mean_witness :
    average_score [Query.mk ["a"] 2, Query.mk ["b"] 4] *
      (([Query.mk ["a"] 2, Query.mk ["b"] 4] : List Query).length : ℚ) =
      (([Query.mk ["a"] 2, Query.mk ["b"] 4] : List Query).map Query.fitness).sum :=
  average_score_empty_and_mean.2.1 _ (by decide)

/-- C8: whenever `sorted_queries()` is called it returns exactly the current
individuals (a permutation of the population at call time — it is a function
of the current population, so this also holds immediately after any
population-changing operation) in non-increasing fitness order:
`result[i].fitness >= result[i+1].fitness` for every index `i`. -/
theorem sorted_queries_descending (l : List Query) :
    (sorted_queries l).Perm l ∧
    ∀ (i : Nat) (h : i + 1 < (sorted_queries l).length),
      ((sorted_queries l).get ⟨i + 1, h⟩).fitness ≤
        ((sorted_queries l).get ⟨i, Nat.lt_of_succ_lt h⟩).fitness := by
  constructor
  · exact List.perm_insertionSort _ l
  · haveI : IsTotal Query (fun a b => b.fitness ≤ a.fitness) :=
      ⟨fun a b => le_total b.fitness a.fitness⟩
    haveI : IsTrans Query (fun a b => b.fitness ≤ a.fitness) :=
      ⟨fun _ _ _ hab hbc => le_trans hbc hab⟩
    have hs : List.Sorted (fun a b => b.fitness ≤ a.fitness) (sorted_queries l) :=
      List.sorted_insertionSort _ l
    intro i h
    exact hs.rel_get_of_lt (Fin.mk_lt_mk.mpr (Nat.lt_succ_self i))

/-- Witness for C8: the ordering and permutation facts instantiated at a
concrete population that arrives unsorted with a tie. -/
theorem sorted_queries_descending_witness :
    (sorted_queries [Query.mk ["a"] 1, Query.mk ["b"] 5, Query.mk ["c"] 5]).Perm
      [Query.mk ["a"] 1, Query.mk ["b"] 5, Query.mk ["c"] 5] ∧
    ∀ (i : Nat)
      (h : i + 1 <
        (sorted_queries [Query.mk ["a"] 1, Query.mk ["b"] 5, Query.mk ["c"] 5]).length),
      ((sorted_queries [Query.mk ["a"] 1, Query.mk ["b"] 5, Query.mk ["c"] 5]).get
          ⟨i + 1, h⟩).fitness ≤
        ((sorted_queries [Query.mk ["a"] 1, Query.mk ["b"] 5, Query.mk ["c"] 5]).get
          ⟨i, Nat.lt_of_succ_lt h⟩).fitness :=
  sorted_queries_descending _

/-! Helper lemmas about first-occurrence deduplication. -/

theorem firstOccurrencesByAux_fuel {α β : Type} [DecidableEq β] (key : α → β) :
    ∀ (f1 f2 : Nat) (l : List α), l.length ≤ f1 → l.length ≤ f2 →
      firstOccurrencesByAux key f1 l = firstOccurrencesByAux key f2 l := by
  intro f1
  induction f1 with
  | zero =>
    intro f2 l h1 _
    have hl : l = [] := List.length_eq_zero.mp (Nat.le_zero.mp h1)
    subst hl
    cases f2 <;> rfl
  | succ n ih =>
    intro f2 l h1 h2
    cases l with
    | nil => cases f2 <;> rfl
    | cons i rest =>
      cases f2 with
      | zero => simp at h2
      | succ m =>
        simp only [firstOccurrencesByAux]
        congr 1
        exact ih m _
          (le_trans (List.length_filter_le _ _) (Nat.succ_le_succ_iff.mp h1))
          (le_trans (List.length_filter_le _ _) (Nat.succ_le_succ_iff.mp h2))

theorem firstOccurrencesBy_cons {α β : Type} [DecidableEq β] (key : α → β)
    (i : α) (rest : List α) :
    firstOccurrencesBy key (i :: rest) =
      i :: firstOccurrencesBy key (rest.filter (fun j => decide (key j ≠ key i))) := by
  unfold firstOccurrencesBy
  simp only [List.length_cons, firstOccurrencesByAux]
  congr 1
  exact firstOccurrencesByAux_fuel key rest.length _ _
    (List.length_filter_le _ _) le_rfl

theorem removeDupsAux_eq_firstOccurrences (store : Nat → Query) :
    ∀ (l : List Nat) (seen : List (List String)),
      removeDupsAux store seen l =
        firstOccurrencesBy (fun i => pyRepr (store i))
          (l.filter (fun i => decide (pyRepr (store i) ∉ seen))) := by
  intro l
  induction l with
  | nil => intro seen; rfl
  | cons i rest ih =>
    intro seen
    by_cases h : pyRepr (store i) ∈ seen
    · rw [removeDupsAux, if_pos h, List.filter_cons]
      have hd : decide (pyRepr (store i) ∉ seen) = false := by simp [h]
      rw [hd]
      simp only [Bool.false_eq_true, if_false]
      exact ih seen
    · rw [removeDupsAux, if_neg h, List.filter_cons]
      have hd : decide (pyRepr (store i) ∉ seen) = true := by simp [h]
      rw [hd]
      simp only [if_true]
      rw [firstOccurrencesBy_cons]
      congr 1
      rw [ih (pyRepr (store i) :: seen), List.filter_filter]
      congr 1
      apply List.filter_congr
      intro j _
      cases hji : decide (pyRepr (store j) = pyRepr (store i)) <;>
        cases hjs : decide (pyRepr (store j) ∈ seen) <;>
          simp_all

theorem firstOccurrencesByAux_sublist {α β : Type} [DecidableEq β] (key : α → β) :
    ∀ (fuel : Nat) (l : List α), (firstOccurrencesByAux key fuel l).Sublist l := by
  intro fuel
  induction fuel with
  | zero => intro l; cases l <;> simp [firstOccurrencesByAux]
  | succ n ih =>
    intro l
    cases l with
    | nil => simp [firstOccurrencesByAux]
    | cons i rest =>
      simp only [firstOccurrencesByAux]
      exact List.Sublist.cons₂ i ((ih _).trans (List.filter_sublist rest))

theorem firstOccurrencesByAux_nodup_keys {α β : Type} [DecidableEq β] (key : α → β) :
    ∀ (fuel : Nat) (l : List α), ((firstOccurrencesByAux key fuel l).map key).Nodup := by
  intro fuel
  induction fuel with
  | zero => intro l; cases l <;> simp [firstOccurrencesByAux]
  | succ n ih =>
    intro l
    cases l with
    | nil => simp [firstOccurrencesByAux]
    | cons i rest =>
      simp only [firstOccurrencesByAux, List.map_cons, List.nodup_cons]
      refine ⟨?_, ih _⟩
      intro hmem
      obtain ⟨j, hj, hkey⟩ := List.mem_map.mp hmem
      have hjf : j ∈ rest.filter (fun j => decide (key j ≠ key i)) :=
        (firstOccurrencesByAux_sublist key n _).subset hj
      have hne := List.of_mem_filter hjf
      simp only [decide_eq_true_eq] at hne
      exact hne hkey

theorem firstOccurrencesByAux_complete {α β : Type} [DecidableEq β] (key : α → β) :
    ∀ (fuel : Nat) (l : List α), l.length ≤ fuel →
      ∀ a ∈ l, key a ∈ (firstOccurrencesByAux key fuel l).map key := by
  intro fuel
  induction fuel with
  | zero =>
    intro l hl a ha
    have he : l = [] := List.length_eq_zero.mp (Nat.le_zero.mp hl)
    subst he; cases ha
  | succ n ih =>
    intro l hl a ha
    cases l with
    | nil => cases ha
    | cons i rest =>
      simp only [firstOccurrencesByAux, List.map_cons, List.mem_cons]
      rcases List.mem_cons.mp ha with h1 | h2
      · left; rw [h1]
      · by_cases hk : key a = key i
        · left; exact hk
        · right
          apply ih
          · exact le_trans (List.length_filter_le _ _) (Nat.succ_le_succ_iff.mp hl)
          · exact List.mem_filter.mpr ⟨h2, by simp [hk]⟩

/-- C5: `remove_duplicates()` retains exactly the first occurrence (in
current population order) of each distinct canonical representation and
discards all later occurrences; the identity key is the representation of
the term content only — fitness plays no role (the final conjunct: queries
with identical terms have identical representations regardless of fitness),
so a later structurally identical query with different fitness is discarded
in favor of the first-seen one. -/
theorem remove_duplicates_keeps_first_occurrence (s : QueriesState) :
    currentIds (removeDuplicatesOp s) =
      firstOccurrencesBy (fun i => pyRepr (s.heap.queryStore i)) (currentIds s) ∧
    (currentIds (removeDuplicatesOp s)).Sublist (currentIds s) ∧
    ((currentIds (removeDuplicatesOp s)).map
      (fun i => pyRepr (s.heap.queryStore i))).Nodup ∧
    (∀ i ∈ currentIds s, pyRepr (s.heap.queryStore i) ∈
      (currentIds (removeDuplicatesOp s)).map
        (fun i => pyRepr (s.heap.queryStore i))) ∧
    (∀ q r : Query, q.terms = r.terms → pyRepr q = pyRepr r) := by
  have hids : currentIds (removeDuplicatesOp s) =
      removeDupsAux s.heap.queryStore [] (currentIds s) :=
    currentIds_allocList _ _
  have heq : removeDupsAux s.heap.queryStore [] (currentIds s) =
      firstOccurrencesBy (fun i => pyRepr (s.heap.queryStore i)) (currentIds s) := by
    rw [removeDupsAux_eq_firstOccurrences]
    congr 1
    simp
  rw [hids, heq]
  refine ⟨rfl, ?_, ?_, ?_, ?_⟩
  · exact firstOccurrencesByAux_sublist _ _ _
  · exact firstOccurrencesByAux_nodup_keys _ _ _
  · exact fun i hi => firstOccurrencesByAux_complete _ _ _ le_rfl i hi
  · intro q r h
    simp [pyRepr, h]

/-- Witness for C5 at the example of the spec: `B` is discarded despite its
higher fitness, `A` and `C` survive. -/
theorem remove_duplicates_keeps_first_occurrence_witness :
    currentIds (removeDuplicatesOp dedupExample) = [0, 2] :=
  (remove_duplicates_keeps_first_occurrence dedupExample).1.trans (by rfl)

/-! Helper lemmas about the mutation loop. -/

theorem mutateLoop_store_frame (f : List String → Query → Query)
    (words : List String) :
    ∀ (l : List Nat) (store : Nat → Query) (j : Nat), j ∉ l →
      (mutateLoop f words l store).2 j = store j := by
  intro l
  induction l with
  | nil => intro store j _; rfl
  | cons i rest ih =>
    intro store j hj
    simp only [mutateLoop]
    rw [ih _ j (fun h => hj (List.mem_cons_of_mem i h))]
    exact Function.update_noteq
      (fun h => hj (by rw [h]; exact List.mem_cons_self i rest)) _ _

theorem mutateLoop_kept (f : List String → Query → Query) (words : List String) :
    ∀ (l : List Nat) (store : Nat → Query), l.Nodup →
      (mutateLoop f words l store).1 =
        l.filter (fun i => decide (0 < ((mutateLoop f words l store).2 i).size)) := by
  intro l
  induction l with
  | nil => intro store _; rfl
  | cons i rest ih =>
    intro store hnd
    obtain ⟨hi, hrest⟩ := List.nodup_cons.mp hnd
    simp only [mutateLoop, List.filter_cons]
    have hframe :
        (mutateLoop f words rest (Function.update store i (f words (store i)))).2 i
          = Function.update store i (f words (store i)) i :=
      mutateLoop_store_frame f words rest _ i hi
    simp only [hframe]
    by_cases h : 0 < ((Function.update store i (f words (store i))) i).size
    · rw [if_pos h, if_pos (by rwa [decide_eq_true_eq])]
      exact congrArg (List.cons i) (ih _ hrest)
    · rw [if_neg h, if_neg (by simpa using h)]
      exact ih _ hrest

/-- C3 (amended): for every population whose underlying list contains no
repeated object reference (no query object occurs twice) and for every
possible outcome of the in-place `Query.mutate` calls, after `mutate()`
every remaining individual has positive size, the surviving ids are exactly
the stable filter of the pre-mutation order by post-mutation viability (so
relative order is preserved, no re-sort), and every individual whose size
became 0 is absent. -/
theorem mutate_filters_empty_queries (s : QueriesState)
    (f : List String → Query → Query) (hnd : (currentIds s).Nodup) :
    (∀ i ∈ currentIds (mutateOp f s), 0 < ((mutateOp f s).heap.queryStore i).size) ∧
    currentIds (mutateOp f s) = (currentIds s).filter
      (fun i => decide (0 < ((mutateOp f s).heap.queryStore i).size)) ∧
    (∀ i ∈ currentIds s, ((mutateOp f s).heap.queryStore i).size = 0 →
      i ∉ currentIds (mutateOp f s)) := by
  have hstore : (mutateOp f s).heap.queryStore =
      (mutateLoop f s.words (currentIds s) s.heap.queryStore).2 := rfl
  have hids : currentIds (mutateOp f s) =
      (mutateLoop f s.words (currentIds s) s.heap.queryStore).1 :=
    currentIds_allocList _ _
  have h2 : currentIds (mutateOp f s) = (currentIds s).filter
      (fun i => decide (0 < ((mutateOp f s).heap.queryStore i).size)) := by
    rw [hids, hstore]
    exact mutateLoop_kept f s.words (currentIds s) s.heap.queryStore hnd
  refine ⟨?_, h2, ?_⟩
  · intro i hi
    rw [h2] at hi
    have hmem := List.of_mem_filter hi
    simpa using hmem
  · intro i _ hz hmem
    rw [h2] at hmem
    have hpos := List.of_mem_filter hmem
    simp only [decide_eq_true_eq] at hpos
    omega

/-- Witness for C3 (amended) at a concrete duplicate-free population. -/
theorem mutate_filters_empty_queries_witness :
    (∀ i ∈ currentIds (mutateOp dropOneTerm mutateExample),
      0 < ((mutateOp dropOneTerm mutateExample).heap.queryStore i).size) ∧
    currentIds (mutateOp dropOneTerm mutateExample) =
      (currentIds mutateExample).filter
        (fun i =>
          decide (0 < ((mutateOp dropOneTerm mutateExample).heap.queryStore i).size)) ∧
    (∀ i ∈ currentIds mutateExample,
      ((mutateOp dropOneTerm mutateExample).heap.queryStore i).size = 0 →
      i ∉ currentIds (mutateOp dropOneTerm mutateExample)) :=
  mutate_filters_empty_queries mutateExample dropOneTerm (by decide)

/-- Counterexample to C3 as stated: when the same query object appears twice
in the population, the loop mutates it twice; the first pass accepts it
while it still has a term, the second in-place mutation empties it, so after
`mutate()` the population retains an individual whose `size()` is 0. -/
theorem mutate_filters_empty_queries_cex :
    ¬ (∀ i ∈ currentIds (mutateOp dropOneTerm aliasedState),
        0 < ((mutateOp dropOneTerm aliasedState).heap.queryStore i).size) := by
  decide

/-- C2: `recombine(CLONE)` appends one deep copy of each current individual
to the existing population (the call reports success, the resulting id list
is the old one extended with the freshly allocated clone ids, so the size is
`2N`, and the list object bound to `queries` is unchanged), and each clone
carries the value of its source while sharing no mutable state with it: the
clone id is not the id of any original, and updating the clone object leaves
the source object untouched. -/
theorem recombine_clone_doubles (s : QueriesState) (hwf : WF s) :
    (recombineOp (ModeArg.member RecombinationMode.CLONE) s).2 = Except.ok () ∧
    currentIds (recombineOp (ModeArg.member RecombinationMode.CLONE) s).1 =
      currentIds s ++ List.range' s.heap.nextQueryId (currentIds s).length ∧
    (currentIds (recombineOp (ModeArg.member RecombinationMode.CLONE) s).1).length =
      2 * (currentIds s).length ∧
    (recombineOp (ModeArg.member RecombinationMode.CLONE) s).1.queriesRef =
      s.queriesRef ∧
    (∀ (j : Nat) (hj : j < (currentIds s).length),
      (recombineOp (ModeArg.member RecombinationMode.CLONE) s).1.heap.queryStore
          (s.heap.nextQueryId + j) =
        s.heap.queryStore ((currentIds s).get ⟨j, hj⟩) ∧
      (s.heap.nextQueryId + j) ∉ currentIds s ∧
      ∀ q : Query,
        Function.update
            (recombineOp (ModeArg.member RecombinationMode.CLONE) s).1.heap.queryStore
            (s.heap.nextQueryId + j) q
            ((currentIds s).get ⟨j, hj⟩) =
          (recombineOp (ModeArg.member RecombinationMode.CLONE) s).1.heap.queryStore
            ((currentIds s).get ⟨j, hj⟩)) := by
  have hids : currentIds (recombineOp (ModeArg.member RecombinationMode.CLONE) s).1 =
      currentIds s ++ List.range' s.heap.nextQueryId (currentIds s).length := by
    simp [recombineOp, currentIds, Function.update_same]
  have hbound : ∀ i ∈ currentIds s, i < s.heap.nextQueryId :=
    fun i hi => hwf.2.2 s.queriesRef hwf.2.1 i hi
  refine ⟨rfl, hids, ?_, rfl, ?_⟩
  · rw [hids]
    simp [List.length_append, List.length_range']
    omega
  · intro j hj
    have hcond : s.heap.nextQueryId ≤ s.heap.nextQueryId + j ∧
        s.heap.nextQueryId + j < s.heap.nextQueryId + (currentIds s).length :=
      ⟨Nat.le_add_right _ _, Nat.add_lt_add_left hj _⟩
    have hstore : (recombineOp (ModeArg.member RecombinationMode.CLONE) s).1.heap.queryStore
        (s.heap.nextQueryId + j) =
        s.heap.queryStore ((currentIds s).get ⟨j, hj⟩) := by
      show (if s.heap.nextQueryId ≤ s.heap.nextQueryId + j ∧
          s.heap.nextQueryId + j < s.heap.nextQueryId + (currentIds s).length then
            deepcopy (s.heap.queryStore
              ((currentIds s).getD (s.heap.nextQueryId + j - s.heap.nextQueryId) 0))
          else s.heap.queryStore (s.heap.nextQueryId + j)) =
        s.heap.queryStore ((currentIds s).get ⟨j, hj⟩)
      rw [if_pos hcond, Nat.add_sub_cancel_left, List.getD_eq_getElem _ _ hj]
      rfl
    have hfresh : (s.heap.nextQueryId + j) ∉ currentIds s := by
      intro hmem
      have := hbound _ hmem
      omega
    refine ⟨hstore, hfresh, ?_⟩
    intro q
    have hne : (currentIds s).get ⟨j, hj⟩ ≠ s.heap.nextQueryId + j := by
      have := hbound _ (List.get_mem (currentIds s) j hj)
      omega
    exact Function.update_noteq hne _ _

/-- Witness for C2 at a concrete well-formed two-query population. -/
theorem recombine_clone_doubles_witness :
    (recombineOp (ModeArg.member RecombinationMode.CLONE) twoQueryState).2 =
      Except.ok () ∧
    currentIds (recombineOp (ModeArg.member RecombinationMode.CLONE) twoQueryState).1 =
      currentIds twoQueryState ++
        List.range' twoQueryState.heap.nextQueryId (currentIds twoQueryState).length ∧
    (currentIds
        (recombineOp (ModeArg.member RecombinationMode.CLONE) twoQueryState).1).length =
      2 * (currentIds twoQueryState).length ∧
    (recombineOp (ModeArg.member RecombinationMode.CLONE) twoQueryState).1.queriesRef =
      twoQueryState.queriesRef ∧
    (∀ (j : Nat) (hj : j < (currentIds twoQueryState).length),
      (recombineOp (ModeArg.member RecombinationMode.CLONE) twoQueryState).1.heap.queryStore
          (twoQueryState.heap.nextQueryId + j) =
        twoQueryState.heap.queryStore ((currentIds twoQueryState).get ⟨j, hj⟩) ∧
      (twoQueryState.heap.nextQueryId + j) ∉ currentIds twoQueryState ∧
      ∀ q : Query,
        Function.update
            (recombineOp (ModeArg.member RecombinationMode.CLONE) twoQueryState).1.heap.queryStore
            (twoQueryState.heap.nextQueryId + j) q
            ((currentIds twoQueryState).get ⟨j, hj⟩) =
          (recombineOp (ModeArg.member RecombinationMode.CLONE) twoQueryState).1.heap.queryStore
            ((currentIds twoQueryState).get ⟨j, hj⟩)) :=
  recombine_clone_doubles twoQueryState (by decide)

/-- C7: for every mode value that is not a recognized `RecombinationMode`
member, `recombine(mode)` surfaces a fatal error to the caller (in the
source the branch raises before `exit(1)` is reached, because
`logging.ERROR` is an integer constant and calling it raises `TypeError`;
either way execution does not continue past the call) and the state —
in particular the population — is left completely unchanged. -/
theorem recombine_unknown_mode_error (s : QueriesState) (mode : ModeArg)
    (h : ∀ m : RecombinationMode, mode ≠ ModeArg.member m) :
    (recombineOp mode s).1 = s ∧
    ∃ msg, (recombineOp mode s).2 = Except.error msg := by
  cases mode with
  | member m => exact absurd rfl (h m)
  | other v => exact ⟨rfl, _, rfl⟩

/-- Witness for C7 at a concrete state and a concrete non-member mode
value. -/
theorem recombine_unknown_mode_error_witness :
    (recombineOp (ModeArg.other "UNKNOWN") twoQueryState).1 = twoQueryState ∧
    ∃ msg, (recombineOp (ModeArg.other "UNKNOWN") twoQueryState).2 =
      Except.error msg :=
  recombine_unknown_mode_error twoQueryState (ModeArg.other "UNKNOWN")
    (fun m => by cases m; exact fun hc => ModeArg.noConfusion hc)

/-! Helper lemmas about the purge filter. -/

theorem purge_keep_sublist {α : Type} (l : List α) (idxs : List Nat) :
    ((l.enum.filter (fun p => decide (p.1 ∉ idxs))).map Prod.snd).Sublist l := by
  have h1 : (l.enum.filter (fun p => decide (p.1 ∉ idxs))).Sublist l.enum :=
    List.filter_sublist _
  have h2 := h1.map Prod.snd
  rwa [List.enum_map_snd] at h2

theorem purge_keep_length {α : Type} (l : List α) (idxs : List Nat)
    (hnd : idxs.Nodup) (hlt : ∀ i ∈ idxs, i < l.length) :
    ((l.enum.filter (fun p => decide (p.1 ∉ idxs))).map Prod.snd).length =
      l.length - idxs.length := by
  rw [List.length_map]
  have hmapfst : ((List.range l.length).filter (fun i => decide (i ∉ idxs))).length =
      (l.enum.filter (fun p => decide (p.1 ∉ idxs))).length := by
    rw [← List.enum_map_fst l, List.filter_map, List.length_map]
    rfl
  have hperm : ((List.range l.length).filter (fun i => decide (i ∈ idxs))).Perm idxs := by
    apply (List.perm_ext_iff_of_nodup ((List.nodup_range _).filter _) hnd).mpr
    intro a
    simp only [List.mem_filter, List.mem_range, decide_eq_true_eq]
    exact ⟨fun h => h.2, fun h => ⟨hlt a h, h⟩⟩
  have hsplit := List.length_eq_length_filter_add
    (l := List.range l.length) (fun i => decide (i ∈ idxs))
  have hsplit2 : (List.range l.length).length =
      ((List.range l.length).filter (fun i => decide (i ∈ idxs))).length +
      ((List.range l.length).filter (fun i => decide (i ∉ idxs))).length := by
    simpa [decide_not] using hsplit
  have hlen := hperm.length_eq
  rw [List.length_range] at hsplit2
  omega

/-- C6: `random_purge(k)` with `k` greater than the population size yields
an error propagated to the caller (the `ValueError` of `random.sample`,
never a silent clamping); with any valid `k` and any sample the
`random.sample` contract can return (that is, `k` distinct indices below the
size), the surviving population has exactly `original_size - k` members,
each of which was present in the original population, and `k` equal to the
size leaves the population empty. -/
theorem random_purge_bounds (pick : Nat → Nat → List Nat) (k : Nat)
    (l : List Query) :
    (l.length < k → ∃ msg, randomPurgeList pick k l = Except.error msg) ∧
    (k ≤ l.length → (pick l.length k).Nodup → (pick l.length k).length = k →
      (∀ i ∈ pick l.length k, i < l.length) →
      ∃ res, randomPurgeList pick k l = Except.ok res ∧
        res.length = l.length - k ∧
        (∀ q ∈ res, q ∈ l) ∧
        (k = l.length → res = [])) := by
  constructor
  · intro hk
    unfold randomPurgeList randomSample
    rw [if_neg (by omega : ¬ k ≤ l.length)]
    exact ⟨_, rfl⟩
  · intro hk hnd hlen hlt
    refine ⟨(l.enum.filter (fun p => decide (p.1 ∉ pick l.length k))).map Prod.snd,
      ?_, ?_, ?_, ?_⟩
    · unfold randomPurgeList randomSample
      rw [if_pos hk]
    · rw [purge_keep_length l _ hnd hlt, hlen]
    · intro q hq
      exact (purge_keep_sublist l _).subset hq
    · intro hkl
      have hl := purge_keep_length l _ hnd hlt
      rw [hlen] at hl
      have h0 : ((l.enum.filter
          (fun p => decide (p.1 ∉ pick l.length k))).map Prod.snd).length = 0 := by
        omega
      exact List.length_eq_zero.mp h0

/-- Witness for C6 with the identity sampling oracle, purging `k = 2` out of
a population of size 2: the result is defined, empty, and drawn from the
original. -/
theorem random_purge_bounds_witness :
    ∃ res, randomPurgeList (fun _ k => List.range k) 2
        [Query.mk ["a"] 1, Query.mk ["b"] 2] = Except.ok res ∧
      res.length = ([Query.mk ["a"] 1, Query.mk ["b"] 2] : List Query).length - 2 ∧
      (∀ q ∈ res, q ∈ [Query.mk ["a"] 1, Query.mk ["b"] 2]) ∧
      (2 = ([Query.mk ["a"] 1, Query.mk ["b"] 2] : List Query).length → res = []) :=
  (random_purge_bounds (fun _ k => List.range k) 2
      [Query.mk ["a"] 1, Query.mk ["b"] 2]).2
    (by decide) (by decide) (by decide) (by decide)

/-! Helper lemmas for the frame properties of the operations. -/

theorem allocList_freshRebind (s : QueriesState)
    (hwf1 : s.individualsRef < s.heap.nextListId) (ids : List Nat) :
    FreshRebind s (allocList s ids) := by
  refine ⟨rfl, rfl, ?_, ?_, ?_⟩
  · intro ℓ hℓ
    exact Function.update_noteq (by omega) _ _
  · show Function.update s.heap.listStore s.heap.nextListId ids s.individualsRef =
      s.heap.listStore s.individualsRef
    exact Function.update_noteq (by omega) _ _
  · show s.heap.nextListId ≠ s.individualsRef
    omega

theorem allocList_WF (s : QueriesState) (hwf : WF s) (ids : List Nat)
    (hids : ∀ i ∈ ids, i < s.heap.nextQueryId) : WF (allocList s ids) := by
  refine ⟨lt_trans hwf.1 (Nat.lt_succ_self _), Nat.lt_succ_self _, ?_⟩
  intro ℓ hℓ i hi
  have hℓ2 : ℓ < s.heap.nextListId + 1 := hℓ
  have hi2 : i ∈ Function.update s.heap.listStore s.heap.nextListId ids ℓ := hi
  show i < s.heap.nextQueryId
  by_cases h : ℓ = s.heap.nextListId
  · subst h
    rw [Function.update_same] at hi2
    exact hids i hi2
  · rw [Function.update_noteq h] at hi2
    exact hwf.2.2 ℓ (by omega) i hi2

theorem mutateLoop_kept_subset (f : List String → Query → Query)
    (w : List String) :
    ∀ (l : List Nat) (store : Nat → Query), (mutateLoop f w l store).1 ⊆ l := by
  intro l
  induction l with
  | nil => intro store i hi; exact absurd hi (List.not_mem_nil i)
  | cons i rest ih =>
    intro store
    simp only [mutateLoop]
    by_cases h : 0 < ((Function.update store i (f w (store i))) i).size
    · rw [if_pos h]
      intro j hj
      rcases List.mem_cons.mp hj with h1 | h2
      · rw [h1]; exact List.mem_cons_self _ _
      · exact List.mem_cons_of_mem _ (ih _ h2)
    · rw [if_neg h]
      intro j hj
      exact List.mem_cons_of_mem _ (ih _ hj)

theorem without_lowest_subset {α : Type} (l : List α) (key : α → ℚ)
    (res : List α) (h : without_lowest l key = Except.ok res) : res ⊆ l := by
  by_cases hl : l = []
  · subst hl
    have : ([] : List α) = res := Except.ok.inj h
    rw [← this]
    exact fun i hi => hi
  · obtain ⟨m, hm⟩ := pySortedBy_head_of_ne_nil key l hl
    rw [without_lowest_spec l key m hm] at h
    rw [← Except.ok.inj h]
    exact List.filter_subset' l

theorem selectOp_ok_shape (s : QueriesState) :
    ∃ ids, without_lowest (currentIds s)
        (fun i => (s.heap.queryStore i).fitness) = Except.ok ids ∧
      ids ⊆ currentIds s ∧ selectOp s = Except.ok (allocList s ids) := by
  by_cases h : currentIds s = []
  · refine ⟨[], ?_, fun i hi => absurd hi (List.not_mem_nil i), ?_⟩
    · rw [h]; rfl
    · simp only [selectOp, h]; rfl
  · obtain ⟨m, hm⟩ := pySortedBy_head_of_ne_nil _ _ h
    have hspec := without_lowest_spec (currentIds s)
      (fun i => (s.heap.queryStore i).fitness) m hm
    refine ⟨_, hspec, List.filter_subset' _, ?_⟩
    simp only [selectOp, hspec]

theorem randomPurgeOp_ok_shape (pick : Nat → Nat → List Nat) (k : Nat)
    (s : QueriesState) (hk : k ≤ (currentIds s).length) :
    randomPurgeOp pick k s = Except.ok (allocList s
      (((currentIds s).enum.filter
        (fun p => decide (p.1 ∉ pick (currentIds s).length k))).map Prod.snd)) := by
  unfold randomPurgeOp randomPurgeList randomSample
  rw [if_pos hk]

theorem removeDupsAux_nil_sublist (store : Nat → Query) (l : List Nat) :
    (removeDupsAux store [] l).Sublist l := by
  rw [removeDupsAux_eq_firstOccurrences]
  exact (firstOccurrencesByAux_sublist _ _ _).trans (List.filter_sublist l)

/-- C10: at construction the `queries` attribute aliases the inherited
`_individuals` list object; each of `select()` (which returns normally),
`mutate()`, `random_purge()` (with `k` within bounds) and
`remove_duplicates()` rebinds `queries` to a freshly built list object while
leaving every previously existing list object — in particular the one still
held by `_individuals` — unchanged, after which the two attributes refer to
different list objects; whereas `recombine(CLONE)` keeps both references and
mutates the shared list object in place (same list id, contents extended, no
fresh list allocated).  Well-formedness is preserved throughout, so the
divergence of the two views persists across subsequent operations. -/
theorem population_list_rebinding (s : QueriesState) (hwf : WF s)
    (f : List String → Query → Query) (pick : Nat → Nat → List Nat) (k : Nat)
    (hk : k ≤ (currentIds s).length) :
    (∀ (h : Heap) (w : List String) (ℓ : Nat),
      (initQueries h w ℓ).queriesRef = (initQueries h w ℓ).individualsRef) ∧
    (∃ t, selectOp s = Except.ok t ∧ FreshRebind s t ∧ WF t) ∧
    (FreshRebind s (mutateOp f s) ∧ WF (mutateOp f s)) ∧
    (∃ t, randomPurgeOp pick k s = Except.ok t ∧ FreshRebind s t ∧ WF t) ∧
    (FreshRebind s (removeDuplicatesOp s) ∧ WF (removeDuplicatesOp s)) ∧
    ((recombineOp (ModeArg.member RecombinationMode.CLONE) s).1.queriesRef =
        s.queriesRef ∧
      (recombineOp (ModeArg.member RecombinationMode.CLONE) s).1.individualsRef =
        s.individualsRef ∧
      (recombineOp (ModeArg.member RecombinationMode.CLONE) s).1.heap.nextListId =
        s.heap.nextListId ∧
      (recombineOp (ModeArg.member RecombinationMode.CLONE) s).1.heap.listStore
          s.queriesRef =
        currentIds s ++ List.range' s.heap.nextQueryId (currentIds s).length ∧
      WF (recombineOp (ModeArg.member RecombinationMode.CLONE) s).1) := by
  have hub : ∀ i ∈ currentIds s, i < s.heap.nextQueryId :=
    fun i hi => hwf.2.2 s.queriesRef hwf.2.1 i hi
  refine ⟨fun _ _ _ => rfl, ?_, ?_, ?_, ?_, ?_⟩
  · obtain ⟨ids, _, hsub, hsel⟩ := selectOp_ok_shape s
    exact ⟨allocList s ids, hsel, allocList_freshRebind s hwf.1 ids,
      allocList_WF s hwf ids (fun i hi => hub i (hsub hi))⟩
  · constructor
    · exact allocList_freshRebind
        { s with heap := { s.heap with
            queryStore :=
              (mutateLoop f s.words (currentIds s) s.heap.queryStore).2 } }
        hwf.1 (mutateLoop f s.words (currentIds s) s.heap.queryStore).1
    · exact allocList_WF
        { s with heap := { s.heap with
            queryStore :=
              (mutateLoop f s.words (currentIds s) s.heap.queryStore).2 } }
        hwf (mutateLoop f s.words (currentIds s) s.heap.queryStore).1
        (fun i hi => hub i
          (mutateLoop_kept_subset f s.words (currentIds s) s.heap.queryStore hi))
  · refine ⟨allocList s _, randomPurgeOp_ok_shape pick k s hk,
      allocList_freshRebind s hwf.1 _, allocList_WF s hwf _ ?_⟩
    intro i hi
    exact hub i ((purge_keep_sublist (currentIds s) _).subset hi)
  · exact ⟨allocList_freshRebind s hwf.1 _,
      allocList_WF s hwf _
        (fun i hi => hub i ((removeDupsAux_nil_sublist _ _).subset hi))⟩
  · refine ⟨rfl, rfl, rfl, ?_, ?_⟩
    · show Function.update s.heap.listStore s.queriesRef
        (currentIds s ++
          List.range' s.heap.nextQueryId (currentIds s).length) s.queriesRef =
        currentIds s ++ List.range' s.heap.nextQueryId (currentIds s).length
      exact Function.update_same _ _ _
    · refine ⟨hwf.1, hwf.2.1, ?_⟩
      intro ℓ hℓ i hi
      have hℓ2 : ℓ < s.heap.nextListId := hℓ
      have hi2 : i ∈ Function.update s.heap.listStore s.queriesRef
          (currentIds s ++
            List.range' s.heap.nextQueryId (currentIds s).length) ℓ := hi
      show i < s.heap.nextQueryId + (currentIds s).length
      by_cases h : ℓ = s.queriesRef
      · subst h
        rw [Function.update_same] at hi2
        rcases List.mem_append.mp hi2 with h1 | h2
        · have := hub i h1
          omega
        · have := List.mem_range'_1.mp h2
          omega
      · rw [Function.update_noteq h] at hi2
        have := hwf.2.2 ℓ hℓ2 i hi2
        omega

/-- Witness for C10 at a concrete well-formed state: `select` succeeds and
rebinds `queries` to a fresh list, diverging from `_individuals`. -/
theorem population_list_rebinding_witness :
    ∃ t, selectOp twoQueryState = Except.ok t ∧ FreshRebind twoQueryState t ∧
      WF t :=
  (population_list_rebinding twoQueryState (by decide) dropOneTerm
    (fun _ k => List.range k) 1 (by decide)).2.1
